import Mathlib

/-!
Verification of the free-splitwise expense-sharing application (`src/app.py`).

Shallow embedding conventions:
* Python `float` values are modelled as exact rationals (`ℚ`); the code's
  arithmetic on amounts is small-scale and is idealised as exact.
* Python `round(x, 2)` and `Decimal(...).quantize(Decimal('0.01'))` both use
  round-half-to-even; they are modelled by `round2` / `q2` below.
* Python `dict`s keyed by user ids are modelled as association lists (for
  per-expense share rows) or as total functions updated pointwise (for the
  `balances` / `total_paid` / `total_owed` dictionaries of `group_view`).
  A `dict` lookup of a missing key raises `KeyError`; the aggregation loop of
  `group_view` is therefore modelled as an `Option`-valued computation that
  returns `none` exactly when the Python code would crash.
* Monetary amounts inside the settlement loop are integer cents (`ℤ`), since
  every value there has been quantized to two decimal places.
-/

namespace FreeSplitwise

/-- Round-half-to-even to an integer (the rounding used by Python's `round`
and by `Decimal.quantize` with the default context). -/
def rhe (q : ℚ) : ℤ :=
  if q - ⌊q⌋ < 1/2 then ⌊q⌋
  else if 1/2 < q - ⌊q⌋ then ⌊q⌋ + 1
  else if Even ⌊q⌋ then ⌊q⌋ else ⌊q⌋ + 1

/-- Python `round(x, 2)`: round to two decimal places, half to even. -/
def round2 (q : ℚ) : ℚ := (rhe (q * 100) : ℚ) / 100

/-- Quantization of a dollar amount to integer cents, as performed by
`Decimal(str(x)).quantize(Decimal('0.01'))` in `compute_settlements`. -/
def q2 (q : ℚ) : ℤ := rhe (q * 100)

/-- An expense row: `created_by` (the payer) and `amount`
(`Expense` model in `app.py`; description and timestamp are irrelevant to
the computations verified here). -/
structure Expense where
  payer : ℕ
  amount : ℚ
deriving DecidableEq

/-- One persisted `ExpenseShare` row: `(user_id, amount)`. -/
abbrev ShareRow := ℕ × ℚ

/-- An expense together with its persisted `ExpenseShare` rows
(possibly empty, in which case `group_view` falls back to an equal split). -/
abbrev Entry := Expense × List ShareRow

/-- `group_view` lines 211–219: the share map of one expense.  If explicit
share rows exist they are used as-is; otherwise the amount is split evenly
over the current member list with
`per = round(e.amount / max(len(member_ids), 1), 2)` (an empty member list
produces an empty share map, since the dict comprehension ranges over
`member_ids`). -/
def sharesFor (members : List ℕ) (ent : Entry) : List ShareRow :=
  if ent.2.isEmpty then
    members.map (fun uid => (uid, round2 (ent.1.amount / (max members.length 1 : ℕ))))
  else ent.2

/-- The three dictionaries built by the aggregation loop of `group_view`
(lines 222–237): `total_paid`, `total_owed`, `balances`. -/
structure Agg where
  tp : ℕ → ℚ
  tow : ℕ → ℚ
  bal : ℕ → ℚ

/-- `total_owed[uid] += share_amt` for one share row. -/
def owedStep (tow : ℕ → ℚ) (r : ShareRow) : ℕ → ℚ :=
  Function.update tow r.1 (tow r.1 + r.2)

/-- The `balances` update for one share row: the payer's net increases by
`amount - share`, any other member's decreases by their share. -/
def balStep (payer : ℕ) (amt : ℚ) (bal : ℕ → ℚ) (r : ShareRow) : ℕ → ℚ :=
  if r.1 = payer then Function.update bal payer (bal payer + (amt - r.2))
  else Function.update bal r.1 (bal r.1 - r.2)

/-- Process one expense in the aggregation loop. -/
def stepAgg (st : Agg) (e : Expense) (smap : List ShareRow) : Agg :=
  { tp := Function.update st.tp e.payer (st.tp e.payer + e.amount)
    tow := smap.foldl owedStep st.tow
    bal := smap.foldl (balStep e.payer e.amount) st.bal }

/-- The aggregation loop raises `KeyError` (here: fails) iff the payer or a
share's user id is missing from the dictionaries, which are keyed by
`member_ids`. -/
def entryOk (members : List ℕ) (e : Expense) (smap : List ShareRow) : Bool :=
  members.contains e.payer && smap.all (fun r => members.contains r.1)

/-- The aggregation loop of `group_view` with explicit running state. -/
def aggRun (members : List ℕ) : Agg → List Entry → Option Agg
  | st, [] => some st
  | st, ent :: rest =>
    let smap := sharesFor members ent
    if entryOk members ent.1 smap then aggRun members (stepAgg st ent.1 smap) rest
    else none

/-- All three dictionaries start at `0.0` for every member. -/
def agg0 : Agg := ⟨fun _ => 0, fun _ => 0, fun _ => 0⟩

/-- The aggregation phase of `group_view` (lines 211–237): `none` models the
`KeyError` crash on a payer or share-holder outside the member list. -/
def aggregate (members : List ℕ) (es : List Entry) : Option Agg :=
  aggRun members agg0 es

/-- `net_balances[uid] = round(total_paid[uid] - total_owed[uid], 2)`
(line 240). -/
def net_balance (a : Agg) (u : ℕ) : ℚ := round2 (a.tp u - a.tow u)

/-- One settlement `{"from": ..., "to": ..., "amount": ...}`, amount in
cents. -/
structure Settlement where
  fromM : ℕ
  toM : ℕ
  amt : ℤ
deriving DecidableEq

/-- `dec_bal`: each member's balance quantized to cents, in member order. -/
def decBal (members : List ℕ) (bal : ℕ → ℚ) : List (ℕ × ℤ) :=
  members.map (fun u => (u, q2 (bal u)))

/-- `creditors.sort(key=lambda x: x[1], reverse=True)`: stable descending by
amount.  Python's `list.sort` is a stable sort; a stable sort of a list with
respect to a total preorder is unique, so it is modelled by
`List.insertionSort` (which Mathlib proves stable). -/
def credR (a b : ℕ × ℤ) : Prop := b.2 ≤ a.2

/-- `debtors.sort(key=lambda x: x[1])`: stable ascending by amount. -/
def debtR (a b : ℕ × ℤ) : Prop := a.2 ≤ b.2

instance : DecidableRel credR := fun a b => inferInstanceAs (Decidable (b.2 ≤ a.2))

instance : DecidableRel debtR := fun a b => inferInstanceAs (Decidable (a.2 ≤ b.2))

/-- The two-pointer loop of `compute_settlements` (lines 257–278).  Entries
before the pointers are fully settled and never revisited, so the loop is
equivalently a recursion consuming both lists from the front.  The code
computes `transfer = min(cred_amt, -debt_amt)` and breaks if it is not
positive; otherwise, if `cb ≤ -db` the transfer is `cb` (the creditor
reaches zero and its pointer advances; the debtor's remainder `db + cb`
stays unless it is zero), and if `cb > -db` the transfer is `-db` (the
debtor reaches zero, the creditor keeps `cb + db > 0`). -/
def settleLoop : List (ℕ × ℤ) → List (ℕ × ℤ) → List Settlement
  | [], _ => []
  | _, [] => []
  | (d, db) :: ds, (c, cb) :: cs =>
    if min cb (-db) ≤ 0 then []
    else if cb ≤ -db then
      ⟨d, c, cb⟩ :: settleLoop (if db + cb = 0 then ds else (d, db + cb) :: ds) cs
    else
      ⟨d, c, -db⟩ :: settleLoop ds ((c, cb + db) :: cs)
termination_by D C => D.length + C.length
decreasing_by
  all_goals try split
  all_goals simp
  all_goals omega

/-- `compute_settlements` (lines 248–278), fed `balances` at line 280. -/
def compute_settlements (members : List ℕ) (bal : ℕ → ℚ) : List Settlement :=
  let dec := decBal members bal
  let creditors := (dec.filter (fun p => 0 < p.2)).insertionSort credR
  let debtors := (dec.filter (fun p => p.2 < 0)).insertionSort debtR
  settleLoop debtors creditors

/-- Total amount of settlements in which `u` is the `from` member. -/
def paidBy (ss : List Settlement) (u : ℕ) : ℤ :=
  (ss.map (fun s => if s.fromM = u then s.amt else 0)).sum

/-- Total amount of settlements in which `u` is the `to` member. -/
def recvBy (ss : List Settlement) (u : ℕ) : ℤ :=
  (ss.map (fun s => if s.toM = u then s.amt else 0)).sum

/-! ### The `add_expense` route (lines 310–384) -/

/-- `split_mode` form value: `'all'`, `'selected_even'`, `'selected_custom'`. -/
inductive SplitMode
  | all
  | selectedEven
  | selectedCustom
deriving DecidableEq

/-- The persisted state touched by `add_expense`: `Expense` rows (keyed by
id), `ExpenseShare` rows `(expense_id, user_id, amount)`, and the
autoincrement counter. -/
structure Db where
  expenses : List (ℕ × Expense)
  shares : List (ℕ × ℕ × ℚ)
  nextId : ℕ
deriving DecidableEq

/-- The submitted form.  `amount = none` models a string on which `float()`
raises (a non-numeric amount); `fields uid = none` models a missing or
non-parsing `amount_<uid>` field in a custom split. -/
structure ExpenseForm where
  amount : Option ℚ
  splitMode : SplitMode
  selected : List ℕ
  fields : ℕ → Option ℚ

/-- The outcome of `add_expense` visible to the user. -/
inductive AddResult
  | invalidAmount
  | customMismatch
  | added
deriving DecidableEq

/-- `total_custom` in the `selected_custom` branch: each selected member's
field parsed with `float`, a missing/unparsable field contributing `0.0`. -/
def customTotal (selected : List ℕ) (fields : ℕ → Option ℚ) : ℚ :=
  (selected.map (fun uid => (fields uid).getD 0)).sum

/-- `add_expense` (lines 310–384).  The expense row is committed first; the
`selected_custom` branch validates `round(total_custom, 2) != round(amt, 2)`
and on mismatch deletes the expense again, so the returned state has the
original `expenses` and `shares` lists. -/
def add_expense (members : List ℕ) (payerId : ℕ) (db : Db) (f : ExpenseForm) :
    Db × AddResult :=
  match f.amount with
  | none => (db, .invalidAmount)
  | some amt =>
    let eid := db.nextId
    let db1 : Db :=
      { expenses := db.expenses ++ [(eid, ⟨payerId, amt⟩)]
        shares := db.shares
        nextId := eid + 1 }
    if f.splitMode = .all ∨ f.selected = [] then
      let per := round2 (amt / (max members.length 1 : ℕ))
      ({ db1 with shares := db1.shares ++ members.map (fun m => (eid, m, per)) }, .added)
    else if f.splitMode = .selectedEven then
      let per := round2 (amt / (max f.selected.length 1 : ℕ))
      ({ db1 with shares := db1.shares ++ f.selected.map (fun m => (eid, m, per)) },
        .added)
    else
      let rows := f.selected.map (fun uid => (uid, (f.fields uid).getD 0))
      if round2 (customTotal f.selected f.fields) ≠ round2 amt then
        ({ db with nextId := eid + 1 }, .customMismatch)
      else
        ({ db1 with shares := db1.shares ++ rows.map (fun r => (eid, r.1, r.2)) },
          .added)

/-! ### Properties of the rounding functions -/

theorem rhe_intCast (n : ℤ) : rhe (n : ℚ) = n := by
  simp [rhe]

theorem abs_rhe_sub (q : ℚ) : |(rhe q : ℚ) - q| ≤ 1/2 := by
  have h1 : (⌊q⌋ : ℚ) ≤ q := Int.floor_le q
  have h2 : q < ⌊q⌋ + 1 := Int.lt_floor_add_one q
  unfold rhe
  split_ifs <;> (rw [abs_le]; push_cast; constructor <;> linarith)

theorem abs_round2_sub (q : ℚ) : |round2 q - q| ≤ 1/200 := by
  have h := abs_rhe_sub (q * 100)
  rw [round2]
  have : (rhe (q * 100) : ℚ) / 100 - q = ((rhe (q * 100) : ℚ) - q * 100) / 100 := by
    ring
  rw [this, abs_div]
  rw [show |(100 : ℚ)| = 100 by norm_num]
  linarith [abs_nonneg ((rhe (q * 100) : ℚ) - q * 100)]

theorem q2_round2 (q : ℚ) : q2 (round2 q) = q2 q := by
  rw [q2, q2, round2]
  rw [show (rhe (q * 100) : ℚ) / 100 * 100 = (rhe (q * 100) : ℚ) by ring]
  exact rhe_intCast _

/-- `q2` of an amount that is already a whole number of cents. -/
theorem q2_eq_of_cents (q : ℚ) (n : ℤ) (h : q * 100 = (n : ℚ)) : q2 q = n := by
  rw [q2, h, rhe_intCast]

/-! ### List helper lemmas -/

theorem sum_map_add {α R : Type} [CommRing R] (l : List α) (f g : α → R) :
    (l.map (fun x => f x + g x)).sum = (l.map f).sum + (l.map g).sum := by
  induction l with
  | nil => simp
  | cons x xs ih => simp only [List.map_cons, List.sum_cons, ih]; ring

theorem list_sum_nonpos (l : List ℤ) (h : ∀ x ∈ l, x ≤ 0) : l.sum ≤ 0 := by
  induction l with
  | nil => simp
  | cons y ys ih =>
    have := h y (List.mem_cons_self _ _)
    have := ih (fun z hz => h z (List.mem_cons_of_mem _ hz))
    simp only [List.sum_cons]; linarith

theorem sum_le_of_mem_of_nonpos (l : List ℤ) (h : ∀ x ∈ l, x ≤ 0) :
    ∀ x ∈ l, l.sum ≤ x := by
  induction l with
  | nil => simp
  | cons y ys ih =>
    intro x hx
    have hys : ys.sum ≤ 0 :=
      list_sum_nonpos ys (fun z hz => h z (List.mem_cons_of_mem _ hz))
    have hy : y ≤ 0 := h y (List.mem_cons_self _ _)
    rcases List.mem_cons.mp hx with rfl | hx'
    · simp only [List.sum_cons]; linarith
    · have := ih (fun z hz => h z (List.mem_cons_of_mem _ hz)) x hx'
      simp only [List.sum_cons]; linarith

theorem mem_le_sum_of_nonneg (l : List ℤ) (h : ∀ x ∈ l, 0 ≤ x) :
    ∀ x ∈ l, x ≤ l.sum := by
  induction l with
  | nil => simp
  | cons y ys ih =>
    intro x hx
    have hys : 0 ≤ ys.sum := List.sum_nonneg (fun z hz => h z (List.mem_cons_of_mem _ hz))
    have hy : 0 ≤ y := h y (List.mem_cons_self _ _)
    rcases List.mem_cons.mp hx with rfl | hx'
    · simp only [List.sum_cons]; linarith
    · have := ih (fun z hz => h z (List.mem_cons_of_mem _ hz)) x hx'
      simp only [List.sum_cons]; linarith

/-! ### Settlement accounting -/

/-- The user ids of a creditor/debtor list. -/
def keyList (l : List (ℕ × ℤ)) : List ℕ := l.map Prod.fst

/-- The total amount of a creditor/debtor list. -/
def amtSum (l : List (ℕ × ℤ)) : ℤ := (l.map Prod.snd).sum

/-- The total amount transferred by a settlement list. -/
def ssSum (ss : List Settlement) : ℤ := (ss.map Settlement.amt).sum

@[simp] theorem keyList_nil : keyList [] = [] := rfl

@[simp] theorem keyList_cons (p : ℕ × ℤ) (l : List (ℕ × ℤ)) :
    keyList (p :: l) = p.1 :: keyList l := rfl

@[simp] theorem paidBy_nil (u : ℕ) : paidBy [] u = 0 := rfl

@[simp] theorem recvBy_nil (u : ℕ) : recvBy [] u = 0 := rfl

theorem paidBy_cons (s : Settlement) (ss : List Settlement) (u : ℕ) :
    paidBy (s :: ss) u = (if s.fromM = u then s.amt else 0) + paidBy ss u := by
  simp [paidBy]

theorem recvBy_cons (s : Settlement) (ss : List Settlement) (u : ℕ) :
    recvBy (s :: ss) u = (if s.toM = u then s.amt else 0) + recvBy ss u := by
  simp [recvBy]

theorem paidBy_eq_zero {ss : List Settlement} {u : ℕ}
    (h : ∀ s ∈ ss, s.fromM ≠ u) : paidBy ss u = 0 := by
  induction ss with
  | nil => rfl
  | cons s rest ih =>
    rw [paidBy_cons, if_neg (h s (List.mem_cons_self _ _)),
      ih (fun t ht => h t (List.mem_cons_of_mem _ ht))]
    ring

theorem recvBy_eq_zero {ss : List Settlement} {u : ℕ}
    (h : ∀ s ∈ ss, s.toM ≠ u) : recvBy ss u = 0 := by
  induction ss with
  | nil => rfl
  | cons s rest ih =>
    rw [recvBy_cons, if_neg (h s (List.mem_cons_self _ _)),
      ih (fun t ht => h t (List.mem_cons_of_mem _ ht))]
    ring

@[simp] theorem ssSum_nil : ssSum [] = 0 := rfl

theorem ssSum_cons (s : Settlement) (ss : List Settlement) :
    ssSum (s :: ss) = s.amt + ssSum ss := by
  simp [ssSum]

theorem mem_keyList_of_mem {p : ℕ × ℤ} {l : List (ℕ × ℤ)} (h : p ∈ l) :
    p.1 ∈ keyList l :=
  List.mem_map_of_mem _ h

@[simp] theorem settleLoop_nil_left (C : List (ℕ × ℤ)) : settleLoop [] C = [] := by
  simp [settleLoop]

@[simp] theorem settleLoop_nil_right (D : List (ℕ × ℤ)) : settleLoop D [] = [] := by
  cases D <;> simp [settleLoop]

theorem settleLoop_cons_le (d : ℕ) (db : ℤ) (ds : List (ℕ × ℤ)) (c : ℕ) (cb : ℤ)
    (cs : List (ℕ × ℤ)) (hmin : ¬ min cb (-db) ≤ 0) (hle : cb ≤ -db) :
    settleLoop ((d, db) :: ds) ((c, cb) :: cs)
      = ⟨d, c, cb⟩ :: settleLoop (if db + cb = 0 then ds else (d, db + cb) :: ds) cs := by
  conv_lhs => rw [settleLoop]
  rw [if_neg hmin, if_pos hle]

theorem settleLoop_cons_gt (d : ℕ) (db : ℤ) (ds : List (ℕ × ℤ)) (c : ℕ) (cb : ℤ)
    (cs : List (ℕ × ℤ)) (hmin : ¬ min cb (-db) ≤ 0) (hgt : ¬ cb ≤ -db) :
    settleLoop ((d, db) :: ds) ((c, cb) :: cs)
      = ⟨d, c, -db⟩ :: settleLoop ds ((c, cb + db) :: cs) := by
  conv_lhs => rw [settleLoop]
  rw [if_neg hmin, if_neg hgt]

/-- Full accounting specification of the two-pointer settlement loop, for
lists of strictly negative debtors and strictly positive creditors with
pairwise distinct ids: every settlement goes from a listed debtor to a
listed creditor with a positive amount; no debtor overpays and no creditor
over-receives; the total paid by debtors and the total received by
creditors both equal the total settled amount; and at termination at least
one of the two sides is completely settled. -/
theorem settleLoop_spec (D C : List (ℕ × ℤ)) :
    (∀ p ∈ D, p.2 < 0) → (∀ p ∈ C, 0 < p.2) →
    (keyList D ++ keyList C).Nodup →
    (∀ s ∈ settleLoop D C, s.fromM ∈ keyList D ∧ s.toM ∈ keyList C ∧ 0 < s.amt)
    ∧ (∀ p ∈ D, p.2 + paidBy (settleLoop D C) p.1 ≤ 0)
    ∧ (∀ p ∈ C, 0 ≤ p.2 - recvBy (settleLoop D C) p.1)
    ∧ (D.map (fun p => paidBy (settleLoop D C) p.1)).sum = ssSum (settleLoop D C)
    ∧ (C.map (fun p => recvBy (settleLoop D C) p.1)).sum = ssSum (settleLoop D C)
    ∧ ((∀ p ∈ D, p.2 + paidBy (settleLoop D C) p.1 = 0)
        ∨ (∀ p ∈ C, p.2 - recvBy (settleLoop D C) p.1 = 0)) := by
  induction D, C using settleLoop.induct with
  | case1 C =>
    intro _ hC _
    refine ⟨by simp, by simp, ?_, by simp, ?_, Or.inl (by simp)⟩
    · intro p hp
      have := hC p hp
      simp only [settleLoop_nil_left, recvBy_nil]
      linarith
    · simp only [settleLoop_nil_left, recvBy_nil]
      simp [ssSum]
  | case2 D hne =>
    intro hD _ _
    refine ⟨by simp, ?_, by simp, ?_, by simp, Or.inr (by simp)⟩
    · intro p hp
      have := hD p hp
      simp only [settleLoop_nil_right, paidBy_nil]
      linarith
    · simp only [settleLoop_nil_right, paidBy_nil]
      simp [ssSum]
  | case3 d db ds c cb cs hmin =>
    intro hD hC _
    have hdb : db < 0 := hD (d, db) (List.mem_cons_self _ _)
    have hcb : 0 < cb := hC (c, cb) (List.mem_cons_self _ _)
    exact absurd hmin (by omega)
  | case4 d db ds c cb cs hmin hle ih =>
    intro hD hC hnd
    have hdb : db < 0 := hD (d, db) (List.mem_cons_self _ _)
    have hcb : 0 < cb := hC (c, cb) (List.mem_cons_self _ _)
    have hndflat : (d :: (keyList ds ++ c :: keyList cs)).Nodup := by
      simpa [keyList] using hnd
    obtain ⟨hdnot, hrest⟩ := List.nodup_cons.mp hndflat
    have hdnotds : d ∉ keyList ds := fun h => hdnot (List.mem_append_left _ h)
    have hcnotcs : c ∉ keyList cs :=
      (List.nodup_cons.mp hrest.of_append_right).1
    have hdisj : List.Disjoint (keyList ds) (c :: keyList cs) :=
      List.disjoint_of_nodup_append hrest
    have htail_nodup : (keyList ds ++ keyList cs).Nodup :=
      List.Nodup.sublist
        (List.Sublist.append_left (List.sublist_cons_self _ _) _) hrest
    have htailD : ∀ p ∈ ds, p.2 < 0 := fun p hp => hD p (List.mem_cons_of_mem _ hp)
    have htailC : ∀ p ∈ cs, 0 < p.2 := fun p hp => hC p (List.mem_cons_of_mem _ hp)
    have hcsne : ∀ p ∈ cs, p.1 ≠ c := fun p hp h => hcnotcs (h ▸ mem_keyList_of_mem hp)
    have hdsne : ∀ p ∈ ds, p.1 ≠ d := fun p hp h => hdnotds (h ▸ mem_keyList_of_mem hp)
    by_cases hz : db + cb = 0
    · rw [dif_pos hz] at ih
      obtain ⟨ihP, ihD2, ihC2, ihSD, ihSC, ihK⟩ := ih htailD htailC htail_nodup
      have hun : settleLoop ((d, db) :: ds) ((c, cb) :: cs)
          = ⟨d, c, cb⟩ :: settleLoop ds cs := by
        rw [settleLoop_cons_le d db ds c cb cs hmin hle, if_pos hz]
      set ss' := settleLoop ds cs with hss'
      have hp0 : paidBy ss' d = 0 :=
        paidBy_eq_zero (fun s hs h => hdnotds (h ▸ (ihP s hs).1))
      have hr0 : recvBy ss' c = 0 :=
        recvBy_eq_zero (fun s hs h => hcnotcs (h ▸ (ihP s hs).2.1))
      have hpaid_tail : ∀ p ∈ ds,
          paidBy (settleLoop ((d, db) :: ds) ((c, cb) :: cs)) p.1 = paidBy ss' p.1 := by
        intro p hp
        rw [hun, paidBy_cons, if_neg (fun h => (hdsne p hp) h.symm)]
        ring
      have hrecv_tail : ∀ p ∈ cs,
          recvBy (settleLoop ((d, db) :: ds) ((c, cb) :: cs)) p.1 = recvBy ss' p.1 := by
        intro p hp
        rw [hun, recvBy_cons, if_neg (fun h => (hcsne p hp) h.symm)]
        ring
      have hpaid_d : paidBy (settleLoop ((d, db) :: ds) ((c, cb) :: cs)) d = cb := by
        rw [hun, paidBy_cons, if_pos rfl, hp0]; ring
      have hrecv_c : recvBy (settleLoop ((d, db) :: ds) ((c, cb) :: cs)) c = cb := by
        rw [hun, recvBy_cons, if_pos rfl, hr0]; ring
      refine ⟨?_, ?_, ?_, ?_, ?_, ?_⟩
      · intro s hs
        rw [hun] at hs
        rcases List.mem_cons.mp hs with rfl | hs'
        · exact ⟨by simp, by simp, hcb⟩
        · obtain ⟨h1, h2, h3⟩ := ihP s hs'
          refine ⟨?_, ?_, h3⟩
          · simp only [keyList_cons, List.mem_cons]
            exact Or.inr h1
          · simp only [keyList_cons, List.mem_cons]
            exact Or.inr h2
      · intro p hp
        rcases List.mem_cons.mp hp with rfl | hp'
        · show db + paidBy (settleLoop ((d, db) :: ds) ((c, cb) :: cs)) d ≤ 0
          rw [hpaid_d]
          omega
        · rw [hpaid_tail p hp']
          exact ihD2 p hp'
      · intro p hp
        rcases List.mem_cons.mp hp with rfl | hp'
        · show 0 ≤ cb - recvBy (settleLoop ((d, db) :: ds) ((c, cb) :: cs)) c
          rw [hrecv_c]
          omega
        · rw [hrecv_tail p hp']
          exact ihC2 p hp'
      · have h1 : (((d, db) :: ds).map
            (fun p => paidBy (settleLoop ((d, db) :: ds) ((c, cb) :: cs)) p.1)).sum
            = cb + (ds.map (fun p => paidBy ss' p.1)).sum := by
          simp only [List.map_cons, List.sum_cons]
          rw [List.map_congr_left hpaid_tail]
          show paidBy (settleLoop ((d, db) :: ds) ((c, cb) :: cs)) d + _ = _
          rw [hpaid_d]
        rw [h1, ihSD, hun, ssSum_cons]
      · have h1 : (((c, cb) :: cs).map
            (fun p => recvBy (settleLoop ((d, db) :: ds) ((c, cb) :: cs)) p.1)).sum
            = cb + (cs.map (fun p => recvBy ss' p.1)).sum := by
          simp only [List.map_cons, List.sum_cons]
          rw [List.map_congr_left hrecv_tail]
          show recvBy (settleLoop ((d, db) :: ds) ((c, cb) :: cs)) c + _ = _
          rw [hrecv_c]
        rw [h1, ihSC, hun, ssSum_cons]
      · rcases ihK with hK | hK
        · left
          intro p hp
          rcases List.mem_cons.mp hp with rfl | hp'
          · show db + paidBy (settleLoop ((d, db) :: ds) ((c, cb) :: cs)) d = 0
            rw [hpaid_d]; omega
          · rw [hpaid_tail p hp']
            exact hK p hp'
        · right
          intro p hp
          rcases List.mem_cons.mp hp with rfl | hp'
          · show cb - recvBy (settleLoop ((d, db) :: ds) ((c, cb) :: cs)) c = 0
            rw [hrecv_c]; omega
          · rw [hrecv_tail p hp']
            exact hK p hp'
    · rw [dif_neg hz] at ih
      have hdnotcs : d ∉ keyList cs :=
        fun h => hdnot (List.mem_append_right _ (List.mem_cons_of_mem _ h))
      have htailD' : ∀ p ∈ (d, db + cb) :: ds, p.2 < 0 := by
        intro p hp
        rcases List.mem_cons.mp hp with rfl | hp'
        · show db + cb < 0
          omega
        · exact htailD p hp'
      have hnodup' : (keyList ((d, db + cb) :: ds) ++ keyList cs).Nodup := by
        simp only [keyList_cons]
        rw [List.cons_append]
        refine List.nodup_cons.mpr ⟨?_, htail_nodup⟩
        intro h
        rcases List.mem_append.mp h with h' | h'
        · exact hdnotds h'
        · exact hdnotcs h'
      obtain ⟨ihP, ihD2, ihC2, ihSD, ihSC, ihK⟩ := ih htailD' htailC hnodup'
      have hun : settleLoop ((d, db) :: ds) ((c, cb) :: cs)
          = ⟨d, c, cb⟩ :: settleLoop ((d, db + cb) :: ds) cs := by
        rw [settleLoop_cons_le d db ds c cb cs hmin hle, if_neg hz]
      set ss' := settleLoop ((d, db + cb) :: ds) cs with hss'
      have hr0 : recvBy ss' c = 0 :=
        recvBy_eq_zero (fun s hs h => hcnotcs (h ▸ (ihP s hs).2.1))
      have hpaid_tail : ∀ p ∈ ds,
          paidBy (settleLoop ((d, db) :: ds) ((c, cb) :: cs)) p.1 = paidBy ss' p.1 := by
        intro p hp
        rw [hun, paidBy_cons, if_neg (fun h => (hdsne p hp) h.symm)]
        ring
      have hrecv_tail : ∀ p ∈ cs,
          recvBy (settleLoop ((d, db) :: ds) ((c, cb) :: cs)) p.1 = recvBy ss' p.1 := by
        intro p hp
        rw [hun, recvBy_cons, if_neg (fun h => (hcsne p hp) h.symm)]
        ring
      have hpaid_d : paidBy (settleLoop ((d, db) :: ds) ((c, cb) :: cs)) d
          = cb + paidBy ss' d := by
        rw [hun, paidBy_cons, if_pos rfl]
      have hrecv_c : recvBy (settleLoop ((d, db) :: ds) ((c, cb) :: cs)) c = cb := by
        rw [hun, recvBy_cons, if_pos rfl, hr0]; ring
      have ihD2_head : (db + cb) + paidBy ss' d ≤ 0 := ihD2 (d, db + cb) (List.mem_cons_self _ _)
      refine ⟨?_, ?_, ?_, ?_, ?_, ?_⟩
      · intro s hs
        rw [hun] at hs
        rcases List.mem_cons.mp hs with rfl | hs'
        · exact ⟨by simp, by simp, hcb⟩
        · obtain ⟨h1, h2, h3⟩ := ihP s hs'
          refine ⟨?_, ?_, h3⟩
          · simpa using h1
          · simp only [keyList_cons, List.mem_cons]
            exact Or.inr h2
      · intro p hp
        rcases List.mem_cons.mp hp with rfl | hp'
        · show db + paidBy (settleLoop ((d, db) :: ds) ((c, cb) :: cs)) d ≤ 0
          rw [hpaid_d]
          omega
        · rw [hpaid_tail p hp']
          exact ihD2 p (List.mem_cons_of_mem _ hp')
      · intro p hp
        rcases List.mem_cons.mp hp with rfl | hp'
        · show 0 ≤ cb - recvBy (settleLoop ((d, db) :: ds) ((c, cb) :: cs)) c
          rw [hrecv_c]
          omega
        · rw [hrecv_tail p hp']
          exact ihC2 p hp'
      · have h1 : (((d, db) :: ds).map
            (fun p => paidBy (settleLoop ((d, db) :: ds) ((c, cb) :: cs)) p.1)).sum
            = cb + paidBy ss' d + (ds.map (fun p => paidBy ss' p.1)).sum := by
          simp only [List.map_cons, List.sum_cons]
          rw [List.map_congr_left hpaid_tail]
          show paidBy (settleLoop ((d, db) :: ds) ((c, cb) :: cs)) d + _ = _
          rw [hpaid_d]
        have h2 : paidBy ss' d + (ds.map (fun p => paidBy ss' p.1)).sum = ssSum ss' := by
          simpa using ihSD
        rw [h1, hun, ssSum_cons]
        show cb + paidBy ss' d + _ = cb + ssSum ss'
        omega
      · have h1 : (((c, cb) :: cs).map
            (fun p => recvBy (settleLoop ((d, db) :: ds) ((c, cb) :: cs)) p.1)).sum
            = cb + (cs.map (fun p => recvBy ss' p.1)).sum := by
          simp only [List.map_cons, List.sum_cons]
          rw [List.map_congr_left hrecv_tail]
          show recvBy (settleLoop ((d, db) :: ds) ((c, cb) :: cs)) c + _ = _
          rw [hrecv_c]
        have h2 : (cs.map (fun p => recvBy ss' p.1)).sum = ssSum ss' := ihSC
        rw [h1, h2, hun, ssSum_cons]
      · rcases ihK with hK | hK
        · left
          intro p hp
          rcases List.mem_cons.mp hp with rfl | hp'
          · show db + paidBy (settleLoop ((d, db) :: ds) ((c, cb) :: cs)) d = 0
            rw [hpaid_d]
            have := hK (d, db + cb) (List.mem_cons_self _ _)
            simp only at this
            omega
          · rw [hpaid_tail p hp']
            exact hK p (List.mem_cons_of_mem _ hp')
        · right
          intro p hp
          rcases List.mem_cons.mp hp with rfl | hp'
          · show cb - recvBy (settleLoop ((d, db) :: ds) ((c, cb) :: cs)) c = 0
            rw [hrecv_c]; omega
          · rw [hrecv_tail p hp']
            exact hK p hp'
  | case5 d db ds c cb cs hmin hgt ih =>
    intro hD hC hnd
    have hdb : db < 0 := hD (d, db) (List.mem_cons_self _ _)
    have hcb : 0 < cb := hC (c, cb) (List.mem_cons_self _ _)
    have hndflat : (d :: (keyList ds ++ c :: keyList cs)).Nodup := by
      simpa [keyList] using hnd
    obtain ⟨hdnot, hrest⟩ := List.nodup_cons.mp hndflat
    have hdnotds : d ∉ keyList ds := fun h => hdnot (List.mem_append_left _ h)
    have hcnotcs : c ∉ keyList cs :=
      (List.nodup_cons.mp hrest.of_append_right).1
    have htailD : ∀ p ∈ ds, p.2 < 0 := fun p hp => hD p (List.mem_cons_of_mem _ hp)
    have htailC' : ∀ p ∈ (c, cb + db) :: cs, 0 < p.2 := by
      intro p hp
      rcases List.mem_cons.mp hp with rfl | hp'
      · show 0 < cb + db
        omega
      · exact hC p (List.mem_cons_of_mem _ hp')
    have hcsne : ∀ p ∈ cs, p.1 ≠ c := fun p hp h => hcnotcs (h ▸ mem_keyList_of_mem hp)
    have hdsne : ∀ p ∈ ds, p.1 ≠ d := fun p hp h => hdnotds (h ▸ mem_keyList_of_mem hp)
    have hnodup' : (keyList ds ++ keyList ((c, cb + db) :: cs)).Nodup := by
      simpa only [keyList_cons] using hrest
    obtain ⟨ihP, ihD2, ihC2, ihSD, ihSC, ihK⟩ := ih htailD htailC' hnodup'
    have hun : settleLoop ((d, db) :: ds) ((c, cb) :: cs)
        = ⟨d, c, -db⟩ :: settleLoop ds ((c, cb + db) :: cs) := by
      rw [settleLoop_cons_gt d db ds c cb cs hmin hgt]
    set ss' := settleLoop ds ((c, cb + db) :: cs) with hss'
    have hp0 : paidBy ss' d = 0 :=
      paidBy_eq_zero (fun s hs h => hdnotds (h ▸ (ihP s hs).1))
    have hpaid_tail : ∀ p ∈ ds,
        paidBy (settleLoop ((d, db) :: ds) ((c, cb) :: cs)) p.1 = paidBy ss' p.1 := by
      intro p hp
      rw [hun, paidBy_cons, if_neg (fun h => (hdsne p hp) h.symm)]
      ring
    have hrecv_tail : ∀ p ∈ cs,
        recvBy (settleLoop ((d, db) :: ds) ((c, cb) :: cs)) p.1 = recvBy ss' p.1 := by
      intro p hp
      rw [hun, recvBy_cons, if_neg (fun h => (hcsne p hp) h.symm)]
      ring
    have hpaid_d : paidBy (settleLoop ((d, db) :: ds) ((c, cb) :: cs)) d = -db := by
      rw [hun, paidBy_cons, if_pos rfl, hp0]; ring
    have hrecv_c : recvBy (settleLoop ((d, db) :: ds) ((c, cb) :: cs)) c
        = -db + recvBy ss' c := by
      rw [hun, recvBy_cons, if_pos rfl]
    have ihC2_head : 0 ≤ (cb + db) - recvBy ss' c := ihC2 (c, cb + db) (List.mem_cons_self _ _)
    refine ⟨?_, ?_, ?_, ?_, ?_, ?_⟩
    · intro s hs
      rw [hun] at hs
      rcases List.mem_cons.mp hs with rfl | hs'
      · refine ⟨by simp, by simp, ?_⟩
        show (0:ℤ) < -db
        omega
      · obtain ⟨h1, h2, h3⟩ := ihP s hs'
        refine ⟨?_, ?_, h3⟩
        · simp only [keyList_cons, List.mem_cons]
          exact Or.inr h1
        · simpa using h2
    · intro p hp
      rcases List.mem_cons.mp hp with rfl | hp'
      · show db + paidBy (settleLoop ((d, db) :: ds) ((c, cb) :: cs)) d ≤ 0
        rw [hpaid_d]
        omega
      · rw [hpaid_tail p hp']
        exact ihD2 p hp'
    · intro p hp
      rcases List.mem_cons.mp hp with rfl | hp'
      · show 0 ≤ cb - recvBy (settleLoop ((d, db) :: ds) ((c, cb) :: cs)) c
        rw [hrecv_c]
        omega
      · rw [hrecv_tail p hp']
        exact ihC2 p (List.mem_cons_of_mem _ hp')
    · have h1 : (((d, db) :: ds).map
          (fun p => paidBy (settleLoop ((d, db) :: ds) ((c, cb) :: cs)) p.1)).sum
          = -db + (ds.map (fun p => paidBy ss' p.1)).sum := by
        simp only [List.map_cons, List.sum_cons]
        rw [List.map_congr_left hpaid_tail]
        show paidBy (settleLoop ((d, db) :: ds) ((c, cb) :: cs)) d + _ = _
        rw [hpaid_d]
      rw [h1, ihSD, hun, ssSum_cons]
    · have h1 : (((c, cb) :: cs).map
          (fun p => recvBy (settleLoop ((d, db) :: ds) ((c, cb) :: cs)) p.1)).sum
          = -db + recvBy ss' c + (cs.map (fun p => recvBy ss' p.1)).sum := by
        simp only [List.map_cons, List.sum_cons]
        rw [List.map_congr_left hrecv_tail]
        show recvBy (settleLoop ((d, db) :: ds) ((c, cb) :: cs)) c + _ = _
        rw [hrecv_c]
      have h2 : recvBy ss' c + (cs.map (fun p => recvBy ss' p.1)).sum = ssSum ss' := by
        simpa using ihSC
      rw [h1, hun, ssSum_cons]
      show -db + recvBy ss' c + _ = -db + ssSum ss'
      omega
    · rcases ihK with hK | hK
      · left
        intro p hp
        rcases List.mem_cons.mp hp with rfl | hp'
        · show db + paidBy (settleLoop ((d, db) :: ds) ((c, cb) :: cs)) d = 0
          rw [hpaid_d]; omega
        · rw [hpaid_tail p hp']
          exact hK p hp'
      · right
        intro p hp
        rcases List.mem_cons.mp hp with rfl | hp'
        · show cb - recvBy (settleLoop ((d, db) :: ds) ((c, cb) :: cs)) c = 0
          rw [hrecv_c]
          have := hK (c, cb + db) (List.mem_cons_self _ _)
          simp only at this
          omega
        · rw [hrecv_tail p hp']
          exact hK p (List.mem_cons_of_mem _ hp')

theorem sum_map_neg {α : Type} (l : List α) (f : α → ℤ) :
    (l.map (fun x => -f x)).sum = -(l.map f).sum := by
  induction l with
  | nil => simp
  | cons x xs ih => simp only [List.map_cons, List.sum_cons, ih]; ring

/-- Per-member residual bound for the settlement loop: under the
preconditions of `settleLoop_spec`, each debtor's and creditor's residual
after applying the produced settlements is bounded in absolute value by the
absolute value of the total imbalance of the input lists. -/
theorem settleLoop_bound (D C : List (ℕ × ℤ))
    (hD : ∀ p ∈ D, p.2 < 0) (hC : ∀ p ∈ C, 0 < p.2)
    (hnd : (keyList D ++ keyList C).Nodup) :
    (∀ p ∈ D, |p.2 + paidBy (settleLoop D C) p.1| ≤ |amtSum D + amtSum C|)
    ∧ (∀ p ∈ C, |p.2 - recvBy (settleLoop D C) p.1| ≤ |amtSum D + amtSum C|) := by
  obtain ⟨hP, hD2, hC2, hSD, hSC, hK⟩ := settleLoop_spec D C hD hC hnd
  have hsumD : (D.map (fun p => p.2 + paidBy (settleLoop D C) p.1)).sum
      = amtSum D + ssSum (settleLoop D C) := by
    rw [sum_map_add, hSD, amtSum]
  have hsumC : (C.map (fun p => p.2 - recvBy (settleLoop D C) p.1)).sum
      = amtSum C - ssSum (settleLoop D C) := by
    have : (C.map (fun p => p.2 - recvBy (settleLoop D C) p.1))
        = (C.map (fun p => p.2 + (fun q => -(recvBy (settleLoop D C) q.1)) p)) := by
      apply List.map_congr_left
      intro p _
      ring
    rw [this, sum_map_add, sum_map_neg, hSC, amtSum]
    rfl
  rcases hK with hK | hK
  · -- all debtors fully settled: creditors hold the whole imbalance
    have hDzero : (D.map (fun p => p.2 + paidBy (settleLoop D C) p.1)).sum = 0 := by
      apply List.sum_eq_zero
      intro x hx
      obtain ⟨p, hp, rfl⟩ := List.mem_map.mp hx
      exact hK p hp
    have hCs : (C.map (fun p => p.2 - recvBy (settleLoop D C) p.1)).sum
        = amtSum D + amtSum C := by omega
    have hCnonneg : ∀ x ∈ (C.map (fun p => p.2 - recvBy (settleLoop D C) p.1)), 0 ≤ x := by
      intro x hx
      obtain ⟨p, hp, rfl⟩ := List.mem_map.mp hx
      exact hC2 p hp
    have hSnonneg : 0 ≤ amtSum D + amtSum C := by
      rw [← hCs]
      exact List.sum_nonneg hCnonneg
    constructor
    · intro p hp
      rw [hK p hp]
      simp only [abs_zero]
      exact abs_nonneg _
    · intro p hp
      have hle := mem_le_sum_of_nonneg _ hCnonneg _
        (List.mem_map_of_mem (fun p => p.2 - recvBy (settleLoop D C) p.1) hp)
      rw [hCs] at hle
      rw [abs_of_nonneg (hC2 p hp), abs_of_nonneg hSnonneg]
      exact hle
  · -- all creditors fully settled: debtors hold the whole imbalance
    have hCzero : (C.map (fun p => p.2 - recvBy (settleLoop D C) p.1)).sum = 0 := by
      apply List.sum_eq_zero
      intro x hx
      obtain ⟨p, hp, rfl⟩ := List.mem_map.mp hx
      exact hK p hp
    have hDs : (D.map (fun p => p.2 + paidBy (settleLoop D C) p.1)).sum
        = amtSum D + amtSum C := by omega
    have hDnonpos : ∀ x ∈ (D.map (fun p => p.2 + paidBy (settleLoop D C) p.1)), x ≤ 0 := by
      intro x hx
      obtain ⟨p, hp, rfl⟩ := List.mem_map.mp hx
      exact hD2 p hp
    have hSnonpos : amtSum D + amtSum C ≤ 0 := by
      rw [← hDs]
      exact list_sum_nonpos _ hDnonpos
    constructor
    · intro p hp
      have hle := sum_le_of_mem_of_nonpos _ hDnonpos _
        (List.mem_map_of_mem (fun p => p.2 + paidBy (settleLoop D C) p.1) hp)
      rw [hDs] at hle
      rw [abs_of_nonpos (hD2 p hp), abs_of_nonpos hSnonpos]
      omega
    · intro p hp
      rw [hK p hp]
      simp only [abs_zero]
      exact abs_nonneg _

/-- At most `|D| + |C| - 1` settlements are produced (truncated natural
subtraction). -/
theorem settleLoop_length (D C : List (ℕ × ℤ)) :
    (settleLoop D C).length ≤ D.length + C.length - 1 := by
  induction D, C using settleLoop.induct with
  | case1 C => simp
  | case2 D hne => simp
  | case3 d db ds c cb cs hmin =>
    conv_lhs => rw [settleLoop]
    rw [if_pos hmin]
    simp
  | case4 d db ds c cb cs hmin hle ih =>
    rw [settleLoop_cons_le d db ds c cb cs hmin hle]
    by_cases hz : db + cb = 0
    · rw [dif_pos hz] at ih
      rw [if_pos hz]
      simp only [List.length_cons] at ih ⊢
      omega
    · rw [dif_neg hz] at ih
      rw [if_neg hz]
      simp only [List.length_cons] at ih ⊢
      omega
  | case5 d db ds c cb cs hmin hgt ih =>
    rw [settleLoop_cons_gt d db ds c cb cs hmin hgt]
    simp only [List.length_cons] at ih ⊢
    omega

/-! ### From `compute_settlements` to per-member residuals -/

theorem amtSum_filter_split (l : List (ℕ × ℤ)) :
    amtSum (l.filter (fun p => p.2 < 0)) + amtSum (l.filter (fun p => 0 < p.2))
      = amtSum l := by
  induction l with
  | nil => simp [amtSum]
  | cons p rest ih =>
    simp only [amtSum, List.map_cons, List.sum_cons] at ih ⊢
    rcases lt_trichotomy p.2 0 with h | h | h
    · have h2 : ¬ (0 < p.2) := by omega
      simp only [List.filter_cons, decide_eq_true_eq, if_pos h, if_neg h2,
        List.map_cons, List.sum_cons]
      omega
    · have h1 : ¬ (p.2 < 0) := by omega
      have h2 : ¬ (0 < p.2) := by omega
      simp only [List.filter_cons, decide_eq_true_eq, if_neg h1, if_neg h2]
      omega
    · have h1 : ¬ (p.2 < 0) := by omega
      simp only [List.filter_cons, decide_eq_true_eq, if_neg h1, if_pos h,
        List.map_cons, List.sum_cons]
      omega

theorem mem_decBal {members : List ℕ} {bal : ℕ → ℚ} {p : ℕ × ℤ}
    (h : p ∈ decBal members bal) : p.1 ∈ members ∧ p.2 = q2 (bal p.1) := by
  obtain ⟨u, hu, rfl⟩ := List.mem_map.mp h
  exact ⟨hu, rfl⟩

theorem decBal_mem (members : List ℕ) (bal : ℕ → ℚ) {u : ℕ} (h : u ∈ members) :
    (u, q2 (bal u)) ∈ decBal members bal :=
  List.mem_map_of_mem _ h

theorem keyList_decBal (members : List ℕ) (bal : ℕ → ℚ) :
    keyList (decBal members bal) = members := by
  simp [keyList, decBal, Function.comp_def]

/-- Applying the settlements produced by `compute_settlements` to the
quantized balances (crediting the `from` member, debiting the `to` member)
leaves every member with a residual bounded by the total imbalance of the
quantized balances. -/
theorem compute_settlements_residual (members : List ℕ) (bal : ℕ → ℚ)
    (hnd : members.Nodup) :
    ∀ u ∈ members,
      |q2 (bal u) + paidBy (compute_settlements members bal) u
        - recvBy (compute_settlements members bal) u|
      ≤ |(members.map (fun v => q2 (bal v))).sum| := by
  intro u hu
  set dec := decBal members bal with hdec
  set D0 := dec.filter (fun p => p.2 < 0) with hD0
  set C0 := dec.filter (fun p => 0 < p.2) with hC0
  set D := D0.insertionSort debtR with hDdef
  set C := C0.insertionSort credR with hCdef
  have hcs : compute_settlements members bal = settleLoop D C := rfl
  have hDmem : ∀ p ∈ D, p ∈ dec ∧ p.2 < 0 := by
    intro p hp
    have hp0 : p ∈ D0 := (List.mem_insertionSort _).mp hp
    obtain ⟨hpl, hcond⟩ := List.mem_filter.mp hp0
    exact ⟨hpl, by simpa using hcond⟩
  have hCmem : ∀ p ∈ C, p ∈ dec ∧ 0 < p.2 := by
    intro p hp
    have hp0 : p ∈ C0 := (List.mem_insertionSort _).mp hp
    obtain ⟨hpl, hcond⟩ := List.mem_filter.mp hp0
    exact ⟨hpl, by simpa using hcond⟩
  have hD : ∀ p ∈ D, p.2 < 0 := fun p hp => (hDmem p hp).2
  have hC : ∀ p ∈ C, 0 < p.2 := fun p hp => (hCmem p hp).2
  have hnd_dec : (keyList dec).Nodup := by
    rw [keyList_decBal]
    exact hnd
  have hndD : (keyList D).Nodup := by
    have hperm : List.Perm (keyList D) (keyList D0) := (List.perm_insertionSort debtR D0).map Prod.fst
    refine hperm.nodup_iff.mpr ?_
    exact List.Nodup.sublist ((List.filter_sublist _).map Prod.fst) hnd_dec
  have hndC : (keyList C).Nodup := by
    have hperm : List.Perm (keyList C) (keyList C0) := (List.perm_insertionSort credR C0).map Prod.fst
    refine hperm.nodup_iff.mpr ?_
    exact List.Nodup.sublist ((List.filter_sublist _).map Prod.fst) hnd_dec
  have hdisj : List.Disjoint (keyList D) (keyList C) := by
    intro x hxD hxC
    obtain ⟨pd, hpd, hpd1⟩ := List.mem_map.mp hxD
    obtain ⟨pc, hpc, hpc1⟩ := List.mem_map.mp hxC
    obtain ⟨hpddec, hpdneg⟩ := hDmem pd hpd
    obtain ⟨hpcdec, hpcpos⟩ := hCmem pc hpc
    have h1 := (mem_decBal hpddec).2
    have h2 := (mem_decBal hpcdec).2
    rw [hpd1] at h1
    rw [hpc1] at h2
    rw [h1] at hpdneg
    rw [h2] at hpcpos
    omega
  have hndDC : (keyList D ++ keyList C).Nodup := List.Nodup.append hndD hndC hdisj
  have hS : amtSum D + amtSum C = (members.map (fun v => q2 (bal v))).sum := by
    have h1 : amtSum D = amtSum D0 :=
      ((List.perm_insertionSort debtR D0).map Prod.snd).sum_eq
    have h2 : amtSum C = amtSum C0 :=
      ((List.perm_insertionSort credR C0).map Prod.snd).sum_eq
    rw [h1, h2, hD0, hC0, amtSum_filter_split]
    simp [amtSum, hdec, decBal, Function.comp_def]
  obtain ⟨hP, hD2, hC2, hSD, hSC, hK⟩ := settleLoop_spec D C hD hC hndDC
  obtain ⟨hbD, hbC⟩ := settleLoop_bound D C hD hC hndDC
  rcases lt_trichotomy (q2 (bal u)) 0 with hlt | heq | hgt
  · have hmemD0 : ((u, q2 (bal u)) : ℕ × ℤ) ∈ D0 :=
      List.mem_filter.mpr ⟨decBal_mem members bal hu, by simpa using hlt⟩
    have hmemD : ((u, q2 (bal u)) : ℕ × ℤ) ∈ D := (List.mem_insertionSort _).mpr hmemD0
    have huD : u ∈ keyList D := mem_keyList_of_mem hmemD
    have hunotC : u ∉ keyList C := fun hx => hdisj huD hx
    have hr0 : recvBy (settleLoop D C) u = 0 :=
      recvBy_eq_zero (fun s hs h => hunotC (h ▸ (hP s hs).2.1))
    have hb := hbD (u, q2 (bal u)) hmemD
    rw [hS] at hb
    rw [hcs, hr0, sub_zero]
    exact hb
  · have hunotD : u ∉ keyList D := by
      intro hx
      obtain ⟨pd, hpd, hpd1⟩ := List.mem_map.mp hx
      obtain ⟨hpddec, hpdneg⟩ := hDmem pd hpd
      have h1 := (mem_decBal hpddec).2
      rw [hpd1] at h1
      rw [h1, heq] at hpdneg
      omega
    have hunotC : u ∉ keyList C := by
      intro hx
      obtain ⟨pc, hpc, hpc1⟩ := List.mem_map.mp hx
      obtain ⟨hpcdec, hpcpos⟩ := hCmem pc hpc
      have h2 := (mem_decBal hpcdec).2
      rw [hpc1] at h2
      rw [h2, heq] at hpcpos
      omega
    have hp0 : paidBy (settleLoop D C) u = 0 :=
      paidBy_eq_zero (fun s hs h => hunotD (h ▸ (hP s hs).1))
    have hr0 : recvBy (settleLoop D C) u = 0 :=
      recvBy_eq_zero (fun s hs h => hunotC (h ▸ (hP s hs).2.1))
    rw [hcs, hp0, hr0, heq]
    simp
  · have hmemC0 : ((u, q2 (bal u)) : ℕ × ℤ) ∈ C0 :=
      List.mem_filter.mpr ⟨decBal_mem members bal hu, by simpa using hgt⟩
    have hmemC : ((u, q2 (bal u)) : ℕ × ℤ) ∈ C := (List.mem_insertionSort _).mpr hmemC0
    have huC : u ∈ keyList C := mem_keyList_of_mem hmemC
    have hunotD : u ∉ keyList D := fun hx => hdisj hx huC
    have hp0 : paidBy (settleLoop D C) u = 0 :=
      paidBy_eq_zero (fun s hs h => hunotD (h ▸ (hP s hs).1))
    have hb := hbC (u, q2 (bal u)) hmemC
    rw [hS] at hb
    rw [hcs, hp0, add_zero]
    exact hb

/-! ### Aggregation lemmas: `balances`, `total_paid`, `total_owed` -/

/-- The part of an expense's share map owed by `u`. -/
def owedSum (smap : List ShareRow) (u : ℕ) : ℚ :=
  (smap.map (fun r => if r.1 = u then r.2 else 0)).sum

/-- The total of an expense's share map. -/
def smapTotal (smap : List ShareRow) : ℚ := (smap.map Prod.snd).sum

theorem owedSum_cons (r : ShareRow) (rest : List ShareRow) (u : ℕ) :
    owedSum (r :: rest) u = (if r.1 = u then r.2 else 0) + owedSum rest u := by
  simp [owedSum]

theorem smapTotal_cons (r : ShareRow) (rest : List ShareRow) :
    smapTotal (r :: rest) = r.2 + smapTotal rest := by
  simp [smapTotal]

theorem sum_map_sub {α : Type} (l : List α) (f g : α → ℚ) :
    (l.map (fun x => f x - g x)).sum = (l.map f).sum - (l.map g).sum := by
  induction l with
  | nil => simp
  | cons x xs ih => simp only [List.map_cons, List.sum_cons, ih]; ring

theorem owedStep_fold (smap : List ShareRow) :
    ∀ (tow : ℕ → ℚ) (u : ℕ), (smap.foldl owedStep tow) u = tow u + owedSum smap u := by
  induction smap with
  | nil =>
    intro tow u
    simp [owedSum]
  | cons r rest ih =>
    intro tow u
    rw [List.foldl_cons, ih, owedSum_cons]
    rw [owedStep, Function.update_apply]
    by_cases h : u = r.1
    · rw [if_pos h, if_pos h.symm, h]
      ring
    · rw [if_neg h, if_neg (fun h2 => h h2.symm)]
      ring

theorem balStep_fold (payer : ℕ) (amt : ℚ) (smap : List ShareRow) :
    ∀ (bal : ℕ → ℚ) (u : ℕ),
      (smap.foldl (balStep payer amt) bal) u
        = bal u + (if u = payer then (smap.countP (fun r => r.1 = payer) : ℚ) * amt else 0)
          - owedSum smap u := by
  induction smap with
  | nil =>
    intro bal u
    simp [owedSum]
  | cons r rest ih =>
    intro bal u
    rw [List.foldl_cons, ih, owedSum_cons, List.countP_cons, balStep]
    simp only [Function.update_apply, decide_eq_true_eq]
    split_ifs
    all_goals push_cast
    all_goals try subst_vars
    all_goals try simp only [Function.update_apply]
    all_goals try split_ifs
    all_goals try (exfalso; omega)
    all_goals ring

theorem countP_key_eq_one {smap : List ShareRow} {k : ℕ}
    (hnd : (smap.map Prod.fst).Nodup) (hk : k ∈ smap.map Prod.fst) :
    smap.countP (fun r => r.1 = k) = 1 := by
  induction smap with
  | nil => simp at hk
  | cons r rest ih =>
    simp only [List.map_cons, List.nodup_cons, List.mem_cons] at hnd hk
    obtain ⟨hr1, hnd2⟩ := hnd
    rcases hk with hk | hk
    · have hz : rest.countP (fun r => r.1 = k) = 0 := by
        rw [List.countP_eq_zero]
        intro a ha
        simp only [decide_eq_true_eq]
        intro h
        apply hr1
        have hm := List.mem_map_of_mem Prod.fst ha
        rwa [h, hk] at hm
      rw [List.countP_cons, hz, if_pos (by simp [hk])]
    · have hne : ¬ (r.1 = k) := fun h => hr1 (by rw [h]; exact hk)
      rw [List.countP_cons, if_neg (by simpa using hne), ih hnd2 hk]

theorem sum_if_single (members : List ℕ) (hnd : members.Nodup) (k : ℕ) (v : ℚ)
    (hk : k ∈ members) :
    (members.map (fun u => if k = u then v else 0)).sum = v := by
  induction members with
  | nil => simp at hk
  | cons m rest ih =>
    simp only [List.nodup_cons] at hnd
    simp only [List.map_cons, List.sum_cons]
    rcases List.mem_cons.mp hk with rfl | hk'
    · rw [if_pos rfl]
      have hz : (rest.map (fun u => if k = u then v else 0))
          = rest.map (fun _ => 0) := by
        apply List.map_congr_left
        intro b hb
        rw [if_neg (fun h => hnd.1 (by rw [h]; exact hb))]
      rw [hz]
      simp
    · have hne : ¬ (k = m) := fun h => hnd.1 (h ▸ hk')
      rw [if_neg hne, ih hnd.2 hk']
      ring

theorem update_add_sum (members : List ℕ) (hnd : members.Nodup) (f : ℕ → ℚ)
    (k : ℕ) (x : ℚ) (hk : k ∈ members) :
    (members.map (Function.update f k (f k + x))).sum = (members.map f).sum + x := by
  induction members with
  | nil => simp at hk
  | cons m rest ih =>
    simp only [List.nodup_cons] at hnd
    simp only [List.map_cons, List.sum_cons]
    rcases List.mem_cons.mp hk with rfl | hk'
    · rw [Function.update_same]
      have hz : (rest.map (Function.update f k (f k + x))) = rest.map f := by
        apply List.map_congr_left
        intro b hb
        exact Function.update_noteq (fun h => hnd.1 (by rw [← h]; exact hb)) _ f
      rw [hz]
      ring
    · have hne : m ≠ k := fun h => hnd.1 (h ▸ hk')
      rw [Function.update_noteq hne, ih hnd.2 hk']
      ring

theorem sum_owedSum (members : List ℕ) (hnd : members.Nodup) (smap : List ShareRow)
    (hk : ∀ r ∈ smap, r.1 ∈ members) :
    (members.map (fun u => owedSum smap u)).sum = smapTotal smap := by
  induction smap with
  | nil => simp [owedSum, smapTotal]
  | cons r rest ih =>
    have h1 : members.map (fun u => owedSum (r :: rest) u)
        = members.map (fun u => (if r.1 = u then r.2 else 0) + owedSum rest u) := by
      apply List.map_congr_left
      intro b _
      rw [owedSum_cons]
    rw [h1, sum_map_add, ih (fun q hq => hk q (List.mem_cons_of_mem _ hq)),
      sum_if_single members hnd r.1 r.2 (hk r (List.mem_cons_self _ _)),
      smapTotal_cons]

/-- A successful `entryOk` check means the payer and every share holder are
group members. -/
theorem entryOk_dest {members : List ℕ} {e : Expense} {smap : List ShareRow}
    (h : entryOk members e smap = true) :
    e.payer ∈ members ∧ ∀ r ∈ smap, r.1 ∈ members := by
  rw [entryOk, Bool.and_eq_true] at h
  constructor
  · have := h.1
    simpa [List.contains_iff_exists_mem_beq] using this
  · intro r hr
    have := List.all_eq_true.mp h.2 r hr
    simpa [List.contains_iff_exists_mem_beq] using this

/-- Through a successful aggregation run, `balances[u]` equals
`total_paid[u] - total_owed[u]`, provided every expense's share map has
pairwise-distinct user ids and contains the payer. -/
theorem aggRun_bal_eq (members : List ℕ) :
    ∀ (es : List Entry) (st a : Agg), aggRun members st es = some a →
    (∀ ent ∈ es, ((sharesFor members ent).map Prod.fst).Nodup
        ∧ ent.1.payer ∈ (sharesFor members ent).map Prod.fst) →
    (∀ u, st.bal u = st.tp u - st.tow u) →
    ∀ u, a.bal u = a.tp u - a.tow u := by
  intro es
  induction es with
  | nil =>
    intro st a h _ hst u
    simp only [aggRun, Option.some.injEq] at h
    rw [← h]
    exact hst u
  | cons ent rest ih =>
    intro st a h hents hst u
    rw [aggRun] at h
    split at h
    · refine ih _ _ h (fun q hq => hents q (List.mem_cons_of_mem _ hq)) ?_ u
      intro v
      obtain ⟨hnodk, hpk⟩ := hents ent (List.mem_cons_self _ _)
      show (stepAgg st ent.1 (sharesFor members ent)).bal v = _
      rw [stepAgg]
      simp only
      rw [balStep_fold, owedStep_fold, countP_key_eq_one hnodk hpk, Function.update_apply]
      rw [hst v]
      by_cases hv : v = ent.1.payer
      · rw [if_pos hv, if_pos hv, hv]
        push_cast
        ring
      · rw [if_neg hv, if_neg hv]
        ring
    · exact absurd h (by simp)

/-- Through a successful aggregation run, the members' total of
`total_paid - total_owed` grows by each expense's amount minus the total of
its share map. -/
theorem aggRun_sum (members : List ℕ) (hnd : members.Nodup) :
    ∀ (es : List Entry) (st a : Agg), aggRun members st es = some a →
    (members.map (fun u => a.tp u - a.tow u)).sum
      = (members.map (fun u => st.tp u - st.tow u)).sum
        + (es.map (fun ent => ent.1.amount - smapTotal (sharesFor members ent))).sum := by
  intro es
  induction es with
  | nil =>
    intro st a h
    simp only [aggRun, Option.some.injEq] at h
    rw [← h]
    simp
  | cons ent rest ih =>
    intro st a h
    rw [aggRun] at h
    split at h
    · rename_i hok
      obtain ⟨hpayer, hkeys⟩ := entryOk_dest hok
      have hstep := ih _ _ h
      have htp : (members.map (fun u => (stepAgg st ent.1 (sharesFor members ent)).tp u)).sum
          = (members.map (fun u => st.tp u)).sum + ent.1.amount := by
        show (members.map (Function.update st.tp ent.1.payer
          (st.tp ent.1.payer + ent.1.amount))).sum = _
        exact update_add_sum members hnd st.tp ent.1.payer ent.1.amount hpayer
      have htow : (members.map (fun u => (stepAgg st ent.1 (sharesFor members ent)).tow u)).sum
          = (members.map (fun u => st.tow u)).sum + smapTotal (sharesFor members ent) := by
        have h1 : members.map (fun u => (stepAgg st ent.1 (sharesFor members ent)).tow u)
            = members.map (fun u => st.tow u + owedSum (sharesFor members ent) u) := by
          apply List.map_congr_left
          intro b _
          exact owedStep_fold _ _ _
        rw [h1, sum_map_add, sum_owedSum members hnd _ hkeys]
      rw [hstep]
      simp only [sum_map_sub]
      rw [htp, htow]
      simp only [List.map_cons, List.sum_cons]
      ring
    · exact absurd h (by simp)

/-! ### Pipeline wrapper and claim theorems -/

/-- The full balance-and-settlement computation of `group_view`: aggregate,
then run `compute_settlements` on the (float) `balances` dict (line 280);
`none` models the `KeyError` crash. -/
def group_view_settlements (members : List ℕ) (es : List Entry) :
    Option (List Settlement) :=
  (aggregate members es).map (fun a => compute_settlements members a.bal)

/-- C1 (amended): for distinct members, when aggregation succeeds and every
expense's share map has distinct user ids and contains its payer, applying
each settlement to the rounded net balances by **adding** its amount to the
`from` member and **subtracting** it from the `to` member leaves every
member within `|Σ net_balances|` (in cents) of zero — in particular exactly
zero when the rounded net balances sum to zero. -/
theorem c1_settlement_residual (members : List ℕ) (es : List Entry) (a : Agg)
    (hnd : members.Nodup)
    (hagg : aggregate members es = some a)
    (hsm : ∀ ent ∈ es, ((sharesFor members ent).map Prod.fst).Nodup
        ∧ ent.1.payer ∈ (sharesFor members ent).map Prod.fst) :
    ∀ u ∈ members,
      |q2 (net_balance a u) + paidBy (compute_settlements members a.bal) u
        - recvBy (compute_settlements members a.bal) u|
      ≤ |(members.map (fun v => q2 (net_balance a v))).sum| := by
  have hbal : ∀ u, a.bal u = a.tp u - a.tow u :=
    aggRun_bal_eq members es agg0 a hagg hsm (fun u => by simp [agg0])
  have hq : ∀ u, q2 (net_balance a u) = q2 (a.bal u) := by
    intro u
    rw [net_balance, q2_round2, hbal]
  intro u hu
  have hres := compute_settlements_residual members a.bal hnd u hu
  rw [hq u]
  have hmap : members.map (fun v => q2 (net_balance a v))
      = members.map (fun v => q2 (a.bal v)) :=
    List.map_congr_left (fun v _ => hq v)
  rw [hmap]
  exact hres

/-- C2 (amended): whenever there is at least one creditor or debtor, the
settlement list has at most `creditors + debtors - 1` entries (over ℤ; for
zero creditors and debtors the list is empty but the stated right-hand side
is `-1`). -/
theorem c2_transaction_bound (members : List ℕ) (bal : ℕ → ℚ)
    (h : 1 ≤ ((decBal members bal).filter (fun p => 0 < p.2)).length
          + ((decBal members bal).filter (fun p => p.2 < 0)).length) :
    ((compute_settlements members bal).length : ℤ)
      ≤ (((decBal members bal).filter (fun p => 0 < p.2)).length : ℤ)
        + (((decBal members bal).filter (fun p => p.2 < 0)).length : ℤ) - 1 := by
  have hlen := settleLoop_length
    (((decBal members bal).filter (fun p => p.2 < 0)).insertionSort debtR)
    (((decBal members bal).filter (fun p => 0 < p.2)).insertionSort credR)
  rw [List.length_insertionSort, List.length_insertionSort] at hlen
  have hcs : compute_settlements members bal
      = settleLoop (((decBal members bal).filter (fun p => p.2 < 0)).insertionSort debtR)
          (((decBal members bal).filter (fun p => 0 < p.2)).insertionSort credR) := rfl
  rw [hcs]
  omega

/-- A list-level triangle inequality. -/
theorem abs_sum_le {α : Type} (l : List α) (f : α → ℚ) :
    |(l.map f).sum| ≤ (l.map (fun x => |f x|)).sum := by
  induction l with
  | nil => simp
  | cons x xs ih =>
    simp only [List.map_cons, List.sum_cons]
    calc |f x + (xs.map f).sum| ≤ |f x| + |(xs.map f).sum| := abs_add _ _
      _ ≤ |f x| + (xs.map (fun x => |f x|)).sum := by linarith

theorem sum_le_length_mul {α : Type} (l : List α) (f : α → ℚ) (c : ℚ)
    (h : ∀ x ∈ l, f x ≤ c) : (l.map f).sum ≤ (l.length : ℚ) * c := by
  induction l with
  | nil => simp
  | cons x xs ih =>
    simp only [List.map_cons, List.sum_cons, List.length_cons]
    have h1 := h x (List.mem_cons_self _ _)
    have h2 := ih (fun y hy => h y (List.mem_cons_of_mem _ hy))
    push_cast
    nlinarith [h1, h2]

/-- C3 (amended): for distinct members and a successful aggregation, the sum
of the computed net balances is bounded by `0.005 × member_count` (net
rounding) plus the total share-map drift `Σ |amount - Σ shares|` over the
expenses — not by `0.01 × member_count`, which fails once several expenses
each leave a rounding residual. -/
theorem c3_conservation (members : List ℕ) (es : List Entry) (a : Agg)
    (hnd : members.Nodup) (hagg : aggregate members es = some a) :
    |(members.map (fun u => net_balance a u)).sum|
      ≤ (members.length : ℚ) * (1/200)
        + (es.map (fun ent => |ent.1.amount - smapTotal (sharesFor members ent)|)).sum := by
  have hsum := aggRun_sum members hnd es agg0 a hagg
  have hz : (members.map (fun u => agg0.tp u - agg0.tow u)).sum = 0 := by
    simp [agg0]
  rw [hz, zero_add] at hsum
  have hsplit : (members.map (fun u => net_balance a u)).sum
      = (members.map (fun u => net_balance a u - (a.tp u - a.tow u))).sum
        + (members.map (fun u => a.tp u - a.tow u)).sum := by
    rw [← sum_map_add]
    apply congrArg
    apply List.map_congr_left
    intro b _
    ring
  rw [hsplit, hsum]
  have h1 : |(members.map (fun u => net_balance a u - (a.tp u - a.tow u))).sum|
      ≤ (members.length : ℚ) * (1/200) := by
    calc |(members.map (fun u => net_balance a u - (a.tp u - a.tow u))).sum|
        ≤ (members.map (fun u => |net_balance a u - (a.tp u - a.tow u)|)).sum :=
          abs_sum_le _ _
      _ ≤ (members.length : ℚ) * (1/200) := by
          apply sum_le_length_mul
          intro u _
          exact abs_round2_sub _
  have h2 : |(es.map (fun ent => ent.1.amount - smapTotal (sharesFor members ent))).sum|
      ≤ (es.map (fun ent => |ent.1.amount - smapTotal (sharesFor members ent)|)).sum :=
    abs_sum_le _ _
  calc |(members.map (fun u => net_balance a u - (a.tp u - a.tow u))).sum
        + (es.map (fun ent => ent.1.amount - smapTotal (sharesFor members ent))).sum|
      ≤ |(members.map (fun u => net_balance a u - (a.tp u - a.tow u))).sum|
        + |(es.map (fun ent => ent.1.amount - smapTotal (sharesFor members ent))).sum| :=
        abs_add _ _
    _ ≤ (members.length : ℚ) * (1/200)
        + (es.map (fun ent => |ent.1.amount - smapTotal (sharesFor members ent)|)).sum := by
        linarith

/-- C4: the balance-and-settlement computation is a pure function of the
member list and expense list (identical inputs give identical outputs), and
both sorts are stable: creditors (resp. debtors) with equal balances keep
their original member-list order in the sorted lists fed to the settlement
loop. -/
theorem c4_deterministic_stable :
    (∀ (m₁ : List ℕ) (es₁ : List Entry) (m₂ : List ℕ) (es₂ : List Entry),
        m₁ = m₂ → es₁ = es₂ →
        group_view_settlements m₁ es₁ = group_view_settlements m₂ es₂)
    ∧ (∀ (members : List ℕ) (bal : ℕ → ℚ) (u v : ℕ × ℤ),
        u.2 = v.2 →
        List.Sublist [u, v] ((decBal members bal).filter (fun p => 0 < p.2)) →
        List.Sublist [u, v]
          (((decBal members bal).filter (fun p => 0 < p.2)).insertionSort credR))
    ∧ (∀ (members : List ℕ) (bal : ℕ → ℚ) (u v : ℕ × ℤ),
        u.2 = v.2 →
        List.Sublist [u, v] ((decBal members bal).filter (fun p => p.2 < 0)) →
        List.Sublist [u, v]
          (((decBal members bal).filter (fun p => p.2 < 0)).insertionSort debtR)) := by
  refine ⟨?_, ?_, ?_⟩
  · intro m₁ es₁ m₂ es₂ h1 h2
    rw [h1, h2]
  · intro members bal u v huv hsub
    exact List.pair_sublist_insertionSort (show credR u v from le_of_eq huv.symm) hsub
  · intro members bal u v huv hsub
    exact List.pair_sublist_insertionSort (show debtR u v from le_of_eq huv) hsub

theorem contains_eq_false_of_not_mem {l : List ℕ} {a : ℕ} (h : a ∉ l) :
    l.contains a = false := by
  rw [Bool.eq_false_iff]
  intro hc
  apply h
  obtain ⟨b, hb, hab⟩ := List.contains_iff_exists_mem_beq.mp hc
  rwa [show a = b from by simpa using hab]

/-- C7 (amended): an expense whose payer is outside the member list makes
the aggregation loop of `group_view` raise `KeyError`
(`total_paid[payer] += e.amount` with `payer` missing from the dict), i.e.
the computation fails instead of returning a best-effort result; no
"balances inconsistent" signal exists anywhere in the code. -/
theorem c7_orphan_payer_crashes (members : List ℕ) (es : List Entry)
    (e : Expense) (rows : List ShareRow)
    (hmem : (e, rows) ∈ es) (hpayer : e.payer ∉ members) :
    aggregate members es = none := by
  have main : ∀ es₀ : List Entry, (e, rows) ∈ es₀ →
      ∀ st : Agg, aggRun members st es₀ = none := by
    intro es₀
    induction es₀ with
    | nil =>
      intro h
      simp at h
    | cons ent rest ih =>
      intro hmem₀ st
      rw [aggRun]
      rcases List.mem_cons.mp hmem₀ with heq | hmem'
      · rw [if_neg]
        rw [← heq, entryOk]
        simp only [contains_eq_false_of_not_mem hpayer, Bool.false_and]
        exact Bool.false_ne_true
      · by_cases hok : entryOk members ent.1 (sharesFor members ent) = true
        · rw [if_pos hok]
          exact ih hmem' _
        · rw [if_neg hok]
  exact main es hmem agg0

/-- The rounded comparison `round(t, 2) != round(a, 2)` used by the custom
split validation: values at distance at least `0.02` always differ after
rounding. -/
theorem round2_ne_of_far (t a : ℚ) (h : 2/100 ≤ |t - a|) : round2 t ≠ round2 a := by
  intro he
  have h1 := abs_round2_sub t
  have h2 := abs_round2_sub a
  have h3 : t - a = (t - round2 t) + (round2 a - a) := by
    rw [he]
    ring
  have h4 : |t - a| ≤ |t - round2 t| + |round2 a - a| := by
    rw [h3]
    exact abs_add _ _
  have h5 : |t - round2 t| = |round2 t - t| := abs_sub_comm _ _
  rw [h5] at h4
  linarith

/-- C5 (amended): the `selected_custom` branch rejects exactly when
`round(total_custom, 2) != round(amt, 2)`.  A custom-share sum at distance
`≥ 0.02` from the amount is always rejected; a sum exactly equal to the
amount is accepted.  (A sum at distance exactly `0.01` is **rejected**, not
accepted: see the counterexample.) -/
theorem c5_custom_split_validation :
    (∀ (members : List ℕ) (payerId : ℕ) (db : Db) (amt : ℚ) (sel : List ℕ)
        (fields : ℕ → Option ℚ), sel ≠ [] →
        2/100 ≤ |customTotal sel fields - amt| →
        (add_expense members payerId db ⟨some amt, .selectedCustom, sel, fields⟩).2
          = .customMismatch)
    ∧ (∀ (members : List ℕ) (payerId : ℕ) (db : Db) (amt : ℚ) (sel : List ℕ)
        (fields : ℕ → Option ℚ), sel ≠ [] →
        customTotal sel fields = amt →
        (add_expense members payerId db ⟨some amt, .selectedCustom, sel, fields⟩).2
          = .added) := by
  constructor
  · intro members payerId db amt sel fields hsel hfar
    simp only [add_expense]
    rw [if_neg (by simp [hsel])]
    rw [if_neg (by simp)]
    rw [if_pos (round2_ne_of_far _ _ hfar)]
  · intro members payerId db amt sel fields hsel heq
    simp only [add_expense]
    rw [if_neg (by simp [hsel])]
    rw [if_neg (by simp)]
    rw [if_neg (by simp [heq])]

/-- C6: whenever `add_expense` reports a custom-split mismatch, the returned
database has the caller's original `Expense` rows and `ExpenseShare` rows:
the transiently committed expense was deleted again and no share row was
ever written. -/
theorem c6_atomicity (members : List ℕ) (payerId : ℕ) (db : Db) (f : ExpenseForm)
    (h : (add_expense members payerId db f).2 = .customMismatch) :
    (add_expense members payerId db f).1.expenses = db.expenses
    ∧ (add_expense members payerId db f).1.shares = db.shares := by
  rcases hamt : f.amount with - | amt
  · simp only [add_expense, hamt] at h
    simp at h
  · simp only [add_expense, hamt] at h ⊢
    split_ifs at h ⊢
    all_goals simp_all

/-- C9 (amended): a non-numeric amount (`float()` raising) is rejected with
nothing written, but a non-positive numeric amount is **not** rejected: the
expense is persisted (there is no positivity check in `add_expense`). -/
theorem c9_amount_validation :
    (∀ (members : List ℕ) (payerId : ℕ) (db : Db) (f : ExpenseForm),
        f.amount = none →
        add_expense members payerId db f = (db, .invalidAmount))
    ∧ (∀ (members : List ℕ) (payerId : ℕ) (db : Db) (amt : ℚ) (sel : List ℕ)
        (fields : ℕ → Option ℚ), amt ≤ 0 →
        (add_expense members payerId db ⟨some amt, .all, sel, fields⟩).2 = .added
        ∧ (db.nextId, ⟨payerId, amt⟩) ∈ (add_expense members payerId db
            ⟨some amt, .all, sel, fields⟩).1.expenses) := by
  constructor
  · intro members payerId db f hf
    simp only [add_expense, hf]
  · intro members payerId db amt sel fields _
    simp only [add_expense]
    rw [if_pos (Or.inl trivial)]
    refine ⟨rfl, ?_⟩
    simp

/-- C10: in a custom split, a selected member whose `amount_<id>` field is
missing or unparsable contributes `0.0` to `total_custom` (the `except`
branch sets `vv = 0.0`), and when the rounded-sum check passes, that
member's share is persisted as `0.0`. -/
theorem c10_malformed_custom_field (members : List ℕ) (payerId : ℕ) (db : Db)
    (amt : ℚ) (sel : List ℕ) (fields : ℕ → Option ℚ) (m : ℕ)
    (hm : m ∈ sel) (hf : fields m = none)
    (hacc : round2 (customTotal sel fields) = round2 amt) :
    (add_expense members payerId db ⟨some amt, .selectedCustom, sel, fields⟩).2 = .added
    ∧ (db.nextId, m, (0 : ℚ)) ∈ (add_expense members payerId db
        ⟨some amt, .selectedCustom, sel, fields⟩).1.shares := by
  have hsel : sel ≠ [] := List.ne_nil_of_mem hm
  simp only [add_expense]
  rw [if_neg (by simp [hsel])]
  rw [if_neg (by simp)]
  rw [if_neg (by simp [hacc])]
  refine ⟨rfl, ?_⟩
  show (db.nextId, m, (0:ℚ)) ∈ db.shares ++ _
  apply List.mem_append_right
  have h1 : ((m, (fields m).getD 0) : ShareRow) ∈ sel.map (fun uid => (uid, (fields uid).getD 0)) :=
    List.mem_map_of_mem _ hm
  have h2 := List.mem_map_of_mem (fun r : ShareRow => (db.nextId, r.1, r.2)) h1
  simpa [hf] using h2

/-- C8: an expense with no explicit share rows, over a non-empty member
list of size `n`, resolves to the same share `round(amount / n, 2)` for
every member — the payer included. -/
theorem c8_even_split (members : List ℕ) (ent : Entry)
    (hrows : ent.2 = []) (hne : members ≠ []) :
    ∀ u ∈ members,
      (u, round2 (ent.1.amount / (members.length : ℚ))) ∈ sharesFor members ent := by
  intro u hu
  rw [sharesFor, if_pos (by simp [hrows])]
  have hpos : 1 ≤ members.length := by
    rcases members with - | ⟨m, rest⟩
    · exact absurd rfl hne
    · simp
  have hmax : (max members.length 1 : ℕ) = members.length := Nat.max_eq_left hpos
  rw [hmax]
  exact List.mem_map_of_mem _ hu

/-! ### Concrete instances: counterexamples and witnesses -/

theorem option_getD_eq {α : Type} (o : Option α) (d : α) (h : o.isSome = true) :
    o = some (o.getD d) := by
  cases o <;> simp_all

/-- Scenario A of the specification: members `[1, 2, 3]`, one expense of
`30.00` paid by member 1, even split. -/
def c1m : List ℕ := [1, 2, 3]

def c1es : List Entry := [(⟨1, 30⟩, [])]

def c1a : Agg := (aggregate c1m c1es).getD agg0

def c1ss : List Settlement := compute_settlements c1m c1a.bal

/-- C1 counterexample (amounts in cents, `0.01` = `1`): at scenario A the
code returns the settlements `2→1: 10.00` and `3→1: 10.00`; applying them
as the claim literally states — **adding** each amount to the `to` member
and **subtracting** it from the `from` member — leaves member 1 at
`20.00 + 10.00 + 10.00 = 40.00`, not within `0.01` of zero. -/
theorem c1_counterexample :
    (aggregate c1m c1es).isSome = true
    ∧ c1ss = [⟨2, 1, 1000⟩, ⟨3, 1, 1000⟩]
    ∧ q2 (net_balance c1a 1) = 2000
    ∧ ¬ (|q2 (net_balance c1a 1) + recvBy c1ss 1 - paidBy c1ss 1| ≤ 1) := by
  have hdec : decBal c1m c1a.bal = [(1, 2000), (2, -1000), (3, -1000)] := by
    simp [c1a, c1m, c1es, aggregate, aggRun, sharesFor, entryOk, stepAgg, agg0,
      owedStep, balStep, Function.update_apply, decBal]
    norm_num [q2, round2, rhe, Int.fract]
  have hss : c1ss = [⟨2, 1, 1000⟩, ⟨3, 1, 1000⟩] := by
    show compute_settlements c1m c1a.bal = _
    rw [compute_settlements, hdec]
    simp [List.insertionSort, List.orderedInsert, credR, debtR, settleLoop]
  have hnet : q2 (net_balance c1a 1) = 2000 := by
    simp [c1a, c1m, c1es, aggregate, aggRun, sharesFor, entryOk, stepAgg, agg0,
      owedStep, balStep, Function.update_apply, net_balance]
    norm_num [q2, round2, rhe, Int.fract]
  refine ⟨by decide, hss, hnet, ?_⟩
  rw [hss, hnet]
  decide

def c1wm : List ℕ := [1, 2]

def c1wes : List Entry := [(⟨1, 10⟩, [(1, 5), (2, 5)])]

def c1wa : Agg := (aggregate c1wm c1wes).getD agg0

theorem c1_settlement_residual_witness :
    c1wm.Nodup
    ∧ (aggregate c1wm c1wes).isSome = true
    ∧ ∀ u ∈ c1wm,
        |q2 (net_balance c1wa u) + paidBy (compute_settlements c1wm c1wa.bal) u
          - recvBy (compute_settlements c1wm c1wa.bal) u|
        ≤ |(c1wm.map (fun v => q2 (net_balance c1wa v))).sum| :=
  ⟨by decide, by decide,
    c1_settlement_residual c1wm c1wes c1wa (by decide)
      (option_getD_eq _ agg0 (by decide)) (by decide)⟩

def c2m : List ℕ := [1]

def c2a : Agg := (aggregate c2m []).getD agg0

/-- C2 counterexample: a group with one member and no expenses has zero
creditors, zero debtors, and an empty settlement list, but the claimed
bound reads `0 ≤ 0 + 0 - 1` over the integers, which is false. -/
theorem c2_counterexample :
    compute_settlements c2m c2a.bal = []
    ∧ ((decBal c2m c2a.bal).filter (fun p => 0 < p.2)).length = 0
    ∧ ((decBal c2m c2a.bal).filter (fun p => p.2 < 0)).length = 0
    ∧ ¬ (((compute_settlements c2m c2a.bal).length : ℤ)
        ≤ (((decBal c2m c2a.bal).filter (fun p => 0 < p.2)).length : ℤ)
          + (((decBal c2m c2a.bal).filter (fun p => p.2 < 0)).length : ℤ) - 1) := by
  have hdec : decBal c2m c2a.bal = [(1, 0)] := by
    simp [c2a, c2m, aggregate, aggRun, agg0, decBal]
    norm_num [q2, rhe, Int.fract]
  have hss : compute_settlements c2m c2a.bal = [] := by
    rw [compute_settlements, hdec]
    simp [List.insertionSort, List.orderedInsert, credR, debtR, settleLoop]
  refine ⟨hss, ?_, ?_, ?_⟩
  · rw [hdec]; decide
  · rw [hdec]; decide
  · rw [hss, hdec]; decide

def c2wbal : ℕ → ℚ := fun u => if u = 1 then 1 else -1

theorem c2_transaction_bound_witness :
    (1 ≤ ((decBal [1, 2] c2wbal).filter (fun p => 0 < p.2)).length
        + ((decBal [1, 2] c2wbal).filter (fun p => p.2 < 0)).length)
    ∧ ((compute_settlements [1, 2] c2wbal).length : ℤ)
        ≤ (((decBal [1, 2] c2wbal).filter (fun p => 0 < p.2)).length : ℤ)
          + (((decBal [1, 2] c2wbal).filter (fun p => p.2 < 0)).length : ℤ) - 1 := by
  have hdec : decBal [1, 2] c2wbal = [(1, 100), (2, -100)] := by
    simp [decBal, c2wbal]
    norm_num [q2, rhe, Int.fract]
  constructor
  · rw [hdec]; decide
  · exact c2_transaction_bound [1, 2] c2wbal (by rw [hdec]; decide)

def c3m : List ℕ := [1, 2, 3]

def c3es : List Entry := [(⟨1, 10⟩, []), (⟨1, 10⟩, []), (⟨1, 10⟩, []), (⟨1, 10⟩, [])]

def c3a : Agg := (aggregate c3m c3es).getD agg0

/-- C3 counterexample: four `10.00` expenses even-split over three members
each leave a `0.01` rounding residual (`3 × 3.33 = 9.99`), so the net
balances sum to `0.04`, exceeding the claimed bound `0.01 × 3 = 0.03`. -/
theorem c3_counterexample :
    (aggregate c3m c3es).isSome = true
    ∧ (c3m.map (fun u => net_balance c3a u)).sum = 1/25
    ∧ ¬ (|(c3m.map (fun u => net_balance c3a u)).sum| ≤ (1/100) * (c3m.length : ℚ)) := by
  have hsum : (c3m.map (fun u => net_balance c3a u)).sum = 1/25 := by
    simp [c3a, c3m, c3es, aggregate, aggRun, sharesFor, entryOk, stepAgg, agg0,
      owedStep, balStep, Function.update_apply, net_balance]
    norm_num [round2, rhe, Int.fract]
  refine ⟨by decide, hsum, ?_⟩
  rw [hsum, abs_of_pos (by norm_num : (0:ℚ) < 1/25)]
  norm_num [c3m]

def c3wa : Agg := (aggregate [1] ([] : List Entry)).getD agg0

theorem c3_conservation_witness :
    ([1] : List ℕ).Nodup
    ∧ |(([1] : List ℕ).map (fun u => net_balance c3wa u)).sum|
      ≤ (([1] : List ℕ).length : ℚ) * (1/200)
        + (([] : List Entry).map
            (fun ent => |ent.1.amount - smapTotal (sharesFor [1] ent)|)).sum :=
  ⟨by decide, c3_conservation [1] [] c3wa (by decide) rfl⟩

def c4wbal : ℕ → ℚ := fun _ => 1

theorem c4_deterministic_stable_witness :
    (((1, 100) : ℕ × ℤ).2 = ((2, 100) : ℕ × ℤ).2)
    ∧ List.Sublist [((1, 100) : ℕ × ℤ), (2, 100)]
        (((decBal [1, 2] c4wbal).filter (fun p => 0 < p.2)).insertionSort credR) := by
  have hdec : (decBal [1, 2] c4wbal).filter (fun p => 0 < p.2) = [(1, 100), (2, 100)] := by
    simp [decBal, c4wbal]
    norm_num [q2, rhe, Int.fract]
  exact ⟨rfl, c4_deterministic_stable.2.1 [1, 2] c4wbal (1, 100) (2, 100) rfl
    (by rw [hdec])⟩

def c5fields : ℕ → Option ℚ := fun u => if u = 1 then some (1499/100) else
  if u = 2 then some 15 else none

def c5db : Db := ⟨[], [], 0⟩

/-- C5 counterexample: custom shares `14.99 + 15.00 = 29.99` against a
`30.00` expense differ by exactly `0.01` — within the `±0.01` band the
claim says is accepted — yet `round(29.99, 2) != round(30.00, 2)` holds and
the expense is rejected. -/
theorem c5_counterexample :
    |customTotal [1, 2] c5fields - 30| ≤ 1/100
    ∧ (add_expense [1, 2] 1 c5db ⟨some 30, .selectedCustom, [1, 2], c5fields⟩).2
        = .customMismatch := by
  have htot : customTotal [1, 2] c5fields = 2999/100 := by
    norm_num [customTotal, c5fields]
  constructor
  · rw [htot, abs_le]
    constructor <;> norm_num
  · simp only [add_expense]
    rw [if_neg (by simp)]
    rw [if_neg (by simp)]
    rw [if_pos ?_]
    rw [htot]
    norm_num [round2, rhe, Int.fract]

def c5wdb : Db := ⟨[], [], 0⟩

def c5wfields : ℕ → Option ℚ := fun _ => some 10

theorem c5_custom_split_validation_witness :
    (([1] : List ℕ) ≠ [] ∧ 2/100 ≤ |customTotal [1] c5wfields - 20|
      ∧ (add_expense [1] 1 c5wdb ⟨some 20, .selectedCustom, [1], c5wfields⟩).2
          = .customMismatch)
    ∧ (customTotal [1] c5wfields = 10
      ∧ (add_expense [1] 1 c5wdb ⟨some 10, .selectedCustom, [1], c5wfields⟩).2
          = .added) := by
  have h1 : customTotal [1] c5wfields = 10 := by
    norm_num [customTotal, c5wfields]
  refine ⟨⟨by decide, ?_, ?_⟩, h1, ?_⟩
  · rw [h1, le_abs]
    right
    norm_num
  · exact c5_custom_split_validation.1 [1] 1 c5wdb 20 [1] c5wfields (by decide)
      (by rw [h1, le_abs]; right; norm_num)
  · exact c5_custom_split_validation.2 [1] 1 c5wdb 10 [1] c5wfields (by decide) h1

def c6fields : ℕ → Option ℚ := fun u => if u = 1 then some (1499/100) else
  if u = 2 then some 15 else none

def c6db : Db := ⟨[(7, ⟨1, 5⟩)], [(7, 1, 5)], 8⟩

theorem c6_atomicity_witness :
    ((add_expense [1, 2] 1 c6db ⟨some 30, .selectedCustom, [1, 2], c6fields⟩).2
        = .customMismatch)
    ∧ (add_expense [1, 2] 1 c6db ⟨some 30, .selectedCustom, [1, 2], c6fields⟩).1.expenses
        = c6db.expenses
    ∧ (add_expense [1, 2] 1 c6db ⟨some 30, .selectedCustom, [1, 2], c6fields⟩).1.shares
        = c6db.shares := by
  have h : (add_expense [1, 2] 1 c6db ⟨some 30, .selectedCustom, [1, 2], c6fields⟩).2
      = .customMismatch := by
    simp only [add_expense]
    rw [if_neg (by simp)]
    rw [if_neg (by simp)]
    rw [if_pos ?_]
    norm_num [customTotal, c6fields, round2, rhe, Int.fract]
  have hc := c6_atomicity [1, 2] 1 c6db ⟨some 30, .selectedCustom, [1, 2], c6fields⟩ h
  exact ⟨h, hc.1, hc.2⟩

def c7m : List ℕ := [1]

def c7es : List Entry := [(⟨2, 5⟩, [])]

/-- C7 counterexample: one group member `1`, one expense whose payer `2` is
not a member; the aggregation loop raises `KeyError`
(`total_paid[2] += 5.0` on a dict with key `1` only), modelled by `none`:
no best-effort settlement and no inconsistency flag are returned. -/
theorem c7_counterexample :
    ((⟨2, 5⟩ : Expense).payer ∉ c7m) ∧ aggregate c7m c7es = none := by
  constructor
  · decide
  · rfl

theorem c7_orphan_payer_crashes_witness :
    ((⟨2, 5⟩, ([] : List ShareRow)) ∈ c7es ∧ (⟨2, 5⟩ : Expense).payer ∉ c7m)
    ∧ aggregate c7m c7es = none :=
  ⟨⟨List.mem_cons_self _ _, by decide⟩,
    c7_orphan_payer_crashes c7m c7es ⟨2, 5⟩ [] (List.mem_cons_self _ _) (by decide)⟩

def c9db : Db := ⟨[], [], 0⟩

def c9f : ExpenseForm := ⟨some (-5), .all, [], fun _ => none⟩

/-- C9 counterexample: a negative amount `-5.00` passes `float()` and there
is no positivity check: the expense is accepted and persisted. -/
theorem c9_counterexample :
    (add_expense [1] 1 c9db c9f).2 = .added
    ∧ ((0, ⟨1, (-5 : ℚ)⟩) : ℕ × Expense) ∈ (add_expense [1] 1 c9db c9f).1.expenses := by
  constructor
  · simp [add_expense, c9f, c9db]
  · simp [add_expense, c9f, c9db]

theorem c9_amount_validation_witness :
    ((⟨none, .all, [], fun _ => none⟩ : ExpenseForm).amount = none
      ∧ add_expense [1] 1 c9db ⟨none, .all, [], fun _ => none⟩ = (c9db, .invalidAmount))
    ∧ ((-5 : ℚ) ≤ 0
      ∧ (add_expense [1] 1 c9db ⟨some (-5), .all, [], fun _ => none⟩).2 = .added
      ∧ ((0, ⟨1, (-5 : ℚ)⟩) : ℕ × Expense) ∈ (add_expense [1] 1 c9db
          ⟨some (-5), .all, [], fun _ => none⟩).1.expenses) := by
  refine ⟨⟨rfl, c9_amount_validation.1 [1] 1 c9db _ rfl⟩, by norm_num, ?_, ?_⟩
  · exact (c9_amount_validation.2 [1] 1 c9db (-5) [] (fun _ => none) (by norm_num)).1
  · have h := (c9_amount_validation.2 [1] 1 c9db (-5) [] (fun _ => none) (by norm_num)).2
    simpa [c9db] using h

def c10fields : ℕ → Option ℚ := fun u => if u = 1 then some 10 else none

def c10db : Db := ⟨[], [], 0⟩

theorem c10_malformed_custom_field_witness :
    ((2 ∈ ([1, 2] : List ℕ)) ∧ c10fields 2 = none
      ∧ round2 (customTotal [1, 2] c10fields) = round2 10)
    ∧ ((add_expense [1, 2] 1 c10db ⟨some 10, .selectedCustom, [1, 2], c10fields⟩).2
        = .added
      ∧ ((0, 2, (0 : ℚ)) : ℕ × ℕ × ℚ) ∈ (add_expense [1, 2] 1 c10db
          ⟨some 10, .selectedCustom, [1, 2], c10fields⟩).1.shares) := by
  have hacc : round2 (customTotal [1, 2] c10fields) = round2 10 := by
    norm_num [customTotal, c10fields]
  have h := c10_malformed_custom_field [1, 2] 1 c10db 10 [1, 2] c10fields 2
    (by decide) rfl hacc
  exact ⟨⟨by decide, rfl, hacc⟩, h.1, by simpa [c10db] using h.2⟩

theorem c8_even_split_witness :
    ((⟨1, 10⟩, ([] : List ShareRow)) : Entry).2 = []
    ∧ ([1, 2] : List ℕ) ≠ []
    ∧ 1 ∈ ([1, 2] : List ℕ)
    ∧ (1, round2 ((10 : ℚ) / (([1, 2] : List ℕ).length : ℚ)))
        ∈ sharesFor [1, 2] (⟨1, 10⟩, []) :=
  ⟨rfl, by decide, by decide,
    c8_even_split [1, 2] (⟨1, 10⟩, []) rfl (by decide) 1 (by decide)⟩

end FreeSplitwise
